import Mathlib

/-!
Verification development for the path-mapping and piece-size-recommendation
core of the `mk_qbittorrent` repository.

Embedding conventions:
* Python strings are embedded as `List Char` (`PyStr`); string slicing,
  `startswith`, `lstrip`/`rstrip` and concatenation are the corresponding
  list operations, so character-level (not component-level) behaviour is
  preserved.
* `pathlib.Path(p).resolve()` is modelled lexically (`resolvePath`):
  absolute input, empty and `.` components dropped, `..` folded into its
  parent.  Symbolic links and the current working directory are outside the
  model; every path handled by the claims is absolute.
* `str(pathlib.Path(p))` is modelled by `strPath`: empty and `.` components
  dropped, `..` kept, no filesystem access.
* Python dicts of mapping rules are embedded as insertion-ordered
  association lists; `sorted(..., key=len, reverse=True)` (a stable sort) is
  embedded as a stable insertion sort, `stableSortDesc`.
* Python floats are embedded as exact rationals; `round(x, 2)` is embedded
  as exact half-to-even decimal rounding (`pyRound2`).
* Filesystem and network effects (`Path.exists`, the qBittorrent
  directory-listing endpoint) are injected as function parameters.
-/

/-- Python strings as lists of characters. -/
abbrev PyStr := List Char

/-- Convenience conversion from Lean string literals to `PyStr`. -/
def pstr (s : String) : PyStr := s.toList

/-- Split a character list at every `'/'`, like Python's `"…".split("/")`:
the result always has at least one (possibly empty) component. -/
def splitSlash : PyStr → List PyStr
  | [] => [[]]
  | c :: rest =>
    match splitSlash rest with
    | [] => [[]]
    | w :: ws => if c = '/' then [] :: w :: ws else (c :: w) :: ws

/-- Join components with `'/'` separators (inverse of `splitSlash` on
slash-free components). -/
def joinSlash : List PyStr → PyStr
  | [] => []
  | [c] => c
  | c :: c' :: cs => c ++ '/' :: joinSlash (c' :: cs)

/-- Components kept by `pathlib` parsing: drops empty components and `"."`
(`".."` is kept, as `PurePosixPath` does). -/
def keepComp (c : PyStr) : Bool := decide (c ≠ [] ∧ c ≠ ['.'])

/-- The non-root components of a path, as `PurePosixPath(p).parts` gives
them (without the leading `"/"` entry). -/
def pathParts (s : PyStr) : List PyStr := (splitSlash s).filter keepComp

/-- One left-to-right pass folding `..` into its parent; the accumulator
holds the components seen so far, reversed. -/
def resolveAux : List PyStr → List PyStr → List PyStr
  | acc, [] => acc.reverse
  | acc, c :: rest =>
    if c = [] ∨ c = ['.'] then resolveAux acc rest
    else if c = ['.', '.'] then resolveAux acc.tail rest
    else resolveAux (c :: acc) rest

/-- Lexical model of `str(pathlib.Path(p).resolve())` for an absolute `p`:
drops empty/`.` components and folds `..`; no symlink or cwd interaction. -/
def resolvePath (s : PyStr) : PyStr :=
  '/' :: joinSlash (resolveAux [] (splitSlash s))

/-- Model of `str(pathlib.Path(p))`: pure normalisation, keeping `..`.
For a relative `p` whose components all vanish, Python yields `"."`. -/
def strPath (s : PyStr) : PyStr :=
  if s.head? = some '/' then '/' :: joinSlash (pathParts s)
  else if pathParts s = [] then ['.'] else joinSlash (pathParts s)

/-- Python's `s.lstrip("/")`. -/
def lstripSlash (s : PyStr) : PyStr := s.dropWhile (· = '/')

/-- Python's `s.rstrip("/")`. -/
def rstripSlash (s : PyStr) : PyStr := (s.reverse.dropWhile (· = '/')).reverse

/-- Model of `PurePosixPath(a).is_relative_to(b)` for two absolute paths:
`b`'s components are an initial segment of `a`'s. -/
def isRelativeTo (a b : PyStr) : Bool := (pathParts b).isPrefixOf (pathParts a)

/-- Stable insertion into a descending-sorted list: `x` goes in front of the
first element whose key is not above `x`'s (`f y x` reads "key of `y` ≤ key
of `x`"). -/
def insStable (f : α → α → Bool) (x : α) : List α → List α
  | [] => [x]
  | y :: ys => if f y x then x :: y :: ys else y :: insStable f x ys

/-- Stable descending sort, the behaviour of Python's
`sorted(items, key=…, reverse=True)`. -/
def stableSortDesc (f : α → α → Bool) (l : List α) : List α :=
  l.foldr (insStable f) []

/-- Comparison by host-path length, the sort key used in
`DockerPathMapper.__init__`. -/
def lenLE (a b : PyStr × PyStr) : Bool := decide (a.1.length ≤ b.1.length)

/-- `self.sorted_mappings`: the mapping items sorted by host-path length,
longest first, ties in insertion order. -/
def sortedMappings (m : List (PyStr × PyStr)) : List (PyStr × PyStr) :=
  stableSortDesc lenLE m

/-- `DockerPathMapper.host_to_container`. -/
def host_to_container (m : List (PyStr × PyStr)) (host_path : PyStr) : PyStr :=
  if m = [] then host_path
  else
    let hp := resolvePath host_path
    match (sortedMappings m).find? (fun hc => (resolvePath hc.1).isPrefixOf hp) with
    | some hc =>
      let relative_path := lstripSlash (hp.drop (resolvePath hc.1).length)
      if relative_path = [] then rstripSlash hc.2
      else rstripSlash hc.2 ++ '/' :: relative_path
    | none => hp

/-- `DockerPathMapper.container_to_host`. -/
def container_to_host (m : List (PyStr × PyStr)) (container_path : PyStr) : PyStr :=
  if m = [] then container_path
  else
    let cp := strPath container_path
    match (sortedMappings m).find? (fun hc => hc.2.isPrefixOf cp) with
    | some hc =>
      let relative_path := lstripSlash (cp.drop hc.2.length)
      if relative_path = [] then rstripSlash hc.1
      else rstripSlash hc.1 ++ '/' :: relative_path
    | none => cp

/-- `DockerPathMapper.is_path_mapped`. -/
def is_path_mapped (m : List (PyStr × PyStr)) (host_path : PyStr) : Bool :=
  if m = [] then false
  else (sortedMappings m).any
    (fun hc => (resolvePath hc.1).isPrefixOf (resolvePath host_path))

/-- The f-string `f"Overlapping mappings: {host_path} and {other_host}"`. -/
def overlapMsg (h h' : PyStr) : PyStr :=
  pstr "Overlapping mappings: " ++ h ++ pstr " and " ++ h'

/-- The f-string `f"Host path does not exist: {host_path}"`. -/
def warnMsg (h : PyStr) : PyStr := pstr "Host path does not exist: " ++ h

/-- Result dictionary of `DockerPathMapper.validate_mapping`. -/
structure ValidationResult where
  issues : List PyStr
  warnings : List PyStr
  is_valid : Bool
deriving DecidableEq, Repr

/-- `DockerPathMapper.validate_mapping`; `exFn` injects `Path(h).exists()`. -/
def validate_mapping (m : List (PyStr × PyStr)) (exFn : PyStr → Bool) :
    ValidationResult :=
  let warnings := (m.filter (fun hc => !exFn hc.1)).map (fun hc => warnMsg hc.1)
  let issues := m.flatMap (fun hc =>
    (m.filter (fun hc' => decide (hc.1 ≠ hc'.1) &&
        (isRelativeTo (resolvePath hc.1) (resolvePath hc'.1) ||
         isRelativeTo (resolvePath hc'.1) (resolvePath hc.1)))).map
      (fun hc' => overlapMsg hc.1 hc'.1))
  ⟨issues, warnings, decide (issues.length = 0)⟩

/-- Round-half-to-even to an integer, the behaviour of Python's `round`
on the exact rational value. -/
def roundHalfEven (q : ℚ) : ℤ :=
  let n := ⌊q⌋
  if q - n < 1/2 then n
  else if 1/2 < q - n then n + 1
  else if 2 ∣ n then n else n + 1

/-- Python's `round(x, 2)` on the exact rational value. -/
def pyRound2 (q : ℚ) : ℚ := (roundHalfEven (q * 100) : ℚ) / 100

/-- The dictionary returned by `TorrentManager._calculate_piece_efficiency`
(float fields as exact rationals, rounded to two decimals as the code does;
the cosmetic `piece_size_human` formatting is not modelled). -/
structure EffMetrics where
  score : ℚ
  waste_percentage : ℚ
  network_efficiency : ℚ
  alignment_efficiency : ℚ
  recommended_for : List String
deriving DecidableEq, Repr

/-- `TorrentManager._calculate_piece_efficiency`.  All divisions are exact
rational divisions (Python float divisions), weights `0.3/0.5/0.2`,
degradation steps `0.05/0.01` as exact rationals. -/
def calcPieceEfficiency (total_bytes piece_size piece_count file_count : Nat) :
    EffMetrics :=
  let last_piece_bytes : Nat :=
    if total_bytes % piece_size = 0 then piece_size else total_bytes % piece_size
  let waste_bytes : Nat := piece_size - last_piece_bytes
  let waste_percentage : ℚ := (waste_bytes : ℚ) / (total_bytes : ℚ) * 100
  let network_efficiency : ℚ :=
    if 1000 ≤ piece_count ∧ piece_count ≤ 4000 then 100
    else if piece_count < 1000 then
      max 50 (100 - ((1000 - piece_count : Nat) : ℚ) * (5/100))
    else max 50 (100 - ((piece_count - 4000 : Nat) : ℚ) * (1/100))
  let alignment_efficiency : ℚ :=
    if 1 < file_count then
      let avg_file_size : ℚ := (total_bytes : ℚ) / (file_count : ℚ)
      if avg_file_size * 2 < (piece_size : ℚ) then 100 - 20
      else if (piece_size : ℚ) < avg_file_size / 10 then 100 - 15
      else 100
    else 100
  let score : ℚ :=
    (100 - waste_percentage) * (3/10) + network_efficiency * (5/10) +
      alignment_efficiency * (2/10)
  let recommended_for : List String :=
    (if piece_count < 500 then ["small_content"]
     else if 1000 ≤ piece_count ∧ piece_count ≤ 2500 then ["optimal_range"]
     else if 4000 < piece_count then ["large_content"] else []) ++
    (if waste_percentage < 1 then ["minimal_waste"] else []) ++
    (if 95 < network_efficiency then ["fast_download"] else [])
  ⟨pyRound2 score, pyRound2 waste_percentage, pyRound2 network_efficiency,
    pyRound2 alignment_efficiency, recommended_for⟩

/-- The twelve candidate piece sizes, powers of two from 16 KiB to 32 MiB. -/
def standard_sizes : List Nat :=
  [16 * 1024, 32 * 1024, 64 * 1024, 128 * 1024, 256 * 1024, 512 * 1024,
   1024 * 1024, 2 * 1024 * 1024, 4 * 1024 * 1024, 8 * 1024 * 1024,
   16 * 1024 * 1024, 32 * 1024 * 1024]

/-- One entry of the `options` list built by
`TorrentManager._calculate_piece_size_options` (again without the cosmetic
`piece_size_human` string). -/
structure PieceOption where
  piece_size_bytes : Nat
  piece_count : Nat
  efficiency_score : ℚ
  waste_percentage : ℚ
  network_efficiency : ℚ
  recommended_for : List String
deriving DecidableEq, Repr

/-- Fallback value (the Python code would raise `IndexError` on an empty
options list, which cannot happen: there are always twelve options). -/
def dummyOption : PieceOption := ⟨0, 0, 0, 0, 0, []⟩

/-- Build the option dictionary for one candidate size (ceiling division as
in the source: `(total_bytes + size - 1) // size`). -/
def mkOption (total_bytes file_count size : Nat) : PieceOption :=
  let pieces := (total_bytes + size - 1) / size
  let e := calcPieceEfficiency total_bytes size pieces file_count
  ⟨size, pieces, e.score, e.waste_percentage, e.network_efficiency,
    e.recommended_for⟩

/-- Sort key used in `options.sort(key=…, reverse=True)`. -/
def scoreLE (a b : PieceOption) : Bool :=
  decide (a.efficiency_score ≤ b.efficiency_score)

/-- The options list sorted by efficiency score, best first (stable). -/
def sortedOptions (total_bytes file_count : Nat) : List PieceOption :=
  stableSortDesc scoreLE (standard_sizes.map (mkOption total_bytes file_count))

/-- `|a - b|` on naturals, Python's `abs(option["piece_count"] - target)`. -/
def natAbsDiff (a b : Nat) : Nat := ((a : ℤ) - (b : ℤ)).natAbs

/-- The `for option in options: … break` scan that may replace the default
recommendation; `rec` stays fixed because the loop breaks at the first
switch. -/
def scanImprove (rec : PieceOption) (target_pieces : Nat) :
    List PieceOption → PieceOption
  | [] => rec
  | o :: rest =>
    if natAbsDiff o.piece_count target_pieces <
         natAbsDiff rec.piece_count target_pieces ∧
       rec.efficiency_score * (95/100) ≤ o.efficiency_score then o
    else scanImprove rec target_pieces rest

/-- `TorrentManager._calculate_piece_size_options`, reduced to the
`recommended` pick and the (truncated) `options` list; the human-readable
`analysis` strings are not modelled. -/
def calcPieceSizeOptions (total_bytes target_pieces file_count : Nat) :
    PieceOption × List PieceOption :=
  let sorted := sortedOptions total_bytes file_count
  let top := sorted.headD dummyOption
  (scanImprove top target_pieces sorted, sorted.take 8)

/-- Outcome of `analyze_qbittorrent_path` as consumed by
`calculate_optimal_piece_size`: either a structured failure (propagated
unchanged) or the pair `(total_bytes, total_file_count)`. -/
inductive AnalysisOutcome where
  | failure (error : String)
  | found (total_bytes file_count : Nat)
deriving DecidableEq, Repr

/-- Structured result of `calculate_optimal_piece_size`: a dict with
`success: False` plus an error message, or `success: True` plus the
recommendation payload. -/
inductive CalcResult where
  | failure (error : String)
  | success (total_bytes file_count target_pieces : Nat)
      (recommended : PieceOption) (options : List PieceOption)
deriving DecidableEq, Repr

/-- The `success` flag of the result dictionary. -/
def CalcResult.isSuccess : CalcResult → Bool
  | .failure _ => false
  | .success _ _ _ _ _ => true

/-- The average file size assumed when the scan found files but no byte
sizes (`100MB average`). -/
def estimatedAvgSize : Nat := 100 * 1024 * 1024

/-- `TorrentManager.calculate_optimal_piece_size` after the directory
analysis (injected as `analysis`): estimation fallback, zero-size guard,
then the piece-size computation. -/
def calculate_optimal_piece_size (analysis : AnalysisOutcome)
    (target_pieces : Nat) : CalcResult :=
  match analysis with
  | .failure e => .failure e
  | .found tb fc =>
    let total_bytes := if tb = 0 ∧ 0 < fc then fc * estimatedAvgSize else tb
    if total_bytes = 0 then
      .failure "Cannot determine content size for piece calculation"
    else
      let pc := calcPieceSizeOptions total_bytes target_pieces fc
      .success total_bytes fc target_pieces pc.1 pc.2

/-- The `stats` dictionary of `TorrentManager._calculate_recursive_stats`.
`scan_duration_ms` (wall-clock time) is not modelled; the `isinstance`
guards in the source are vacuous because the fields are always ints, so the
dead re-initialisation branches are omitted.  `largest_file` is declared and
never assigned in the source. -/
structure ScanStats where
  total_bytes : Nat
  file_count : Nat
  directory_count : Nat
  max_depth : Nat
  largest_file : Option PyStr
deriving DecidableEq, Repr

/-- The initial `stats` dictionary. -/
def initStats : ScanStats := ⟨0, 0, 0, 0, none⟩

/-- Python's `item_str.endswith('/')`. -/
def endsWithSlash (s : PyStr) : Bool := s.getLast? = some '/'

/-- The `for item in contents` body: count files and directories and queue
subdirectories (in listing order) at depth `d + 1`. -/
def processItems (current : PyStr) (d : Nat) :
    List PyStr → ScanStats → ScanStats × List (PyStr × Nat)
  | [], stats => (stats, [])
  | item :: rest, stats =>
    let item_name := rstripSlash item
    if endsWithSlash item then
      let full_path :=
        if endsWithSlash current then current ++ item_name
        else current ++ '/' :: item_name
      let r := processItems current d rest
        { stats with directory_count := stats.directory_count + 1 }
      (r.1, (full_path, d + 1) :: r.2)
    else
      processItems current d rest { stats with file_count := stats.file_count + 1 }

/-- The `while queue and len(visited) < 1000` loop of
`_calculate_recursive_stats`.  `listDir` injects
`client.app_get_directory_content`; `none` models the call raising, which
the source catches and skips (`except …: continue`).  `visited` is the
visited set (kept duplicate-free because insertion is guarded by the
membership test). -/
def scanLoop (listDir : PyStr → Option (List PyStr)) (maxDepth : Nat)
    (queue : List (PyStr × Nat)) (visited : List PyStr) (stats : ScanStats) :
    ScanStats :=
  match queue with
  | [] => stats
  | (p, d) :: rest =>
    if _hv : visited.length < 1000 then
      if p ∈ visited ∨ maxDepth < d then scanLoop listDir maxDepth rest visited stats
      else
        let stats1 := { stats with max_depth := max stats.max_depth d }
        match listDir p with
        | none => scanLoop listDir maxDepth rest (p :: visited) stats1
        | some contents =>
          let r := processItems p d contents stats1
          scanLoop listDir maxDepth (rest ++ r.2) (p :: visited) r.1
    else stats
termination_by (1000 - visited.length, queue.length)
decreasing_by
  · apply Prod.Lex.right; simp
  · apply Prod.Lex.left; simp only [List.length_cons]; omega
  · apply Prod.Lex.left; simp only [List.length_cons]; omega

/-- `TorrentManager._calculate_recursive_stats` (timing aside). -/
def calculateRecursiveStats (listDir : PyStr → Option (List PyStr))
    (base_path : PyStr) (max_depth : Nat := 10) : ScanStats :=
  scanLoop listDir max_depth [(base_path, 0)] [] initStats

/-- A well-formed path component: nonempty, not `.` or `..`, slash-free. -/
abbrev GoodComp (c : PyStr) : Prop := c ≠ [] ∧ c ≠ ['.'] ∧ c ≠ ['.', '.'] ∧ '/' ∉ c

/-- A canonical absolute path with at least one component: exactly the
strings fixed by `resolvePath`, root excluded. -/
def CleanAbs (s : PyStr) : Prop :=
  ∃ cs, cs ≠ [] ∧ (∀ c ∈ cs, GoodComp c) ∧ s = '/' :: joinSlash cs

/-- A canonical nonempty relative path (no leading/trailing slash, no
empty/`.`/`..` components). -/
def CleanRel (s : PyStr) : Prop :=
  ∃ cs, cs ≠ [] ∧ (∀ c ∈ cs, GoodComp c) ∧ s = joinSlash cs

theorem splitSlash_ne_nil (s : PyStr) : splitSlash s ≠ [] := by
  cases s with
  | nil => simp [splitSlash]
  | cons c rest =>
    simp only [splitSlash]
    cases h : splitSlash rest with
    | nil => simp
    | cons w ws => by_cases hc : c = '/' <;> simp [hc]

theorem splitSlash_cons_slash (s : PyStr) :
    splitSlash ('/' :: s) = [] :: splitSlash s := by
  simp only [splitSlash]
  cases h : splitSlash s with
  | nil => exact absurd h (splitSlash_ne_nil s)
  | cons w ws => simp

theorem splitSlash_cons_of_ne (c : Char) (s : PyStr) (hc : c ≠ '/') :
    splitSlash (c :: s) = (c :: (splitSlash s).headD []) :: (splitSlash s).tail := by
  simp only [splitSlash]
  cases h : splitSlash s with
  | nil => exact absurd h (splitSlash_ne_nil s)
  | cons w ws => simp [hc]

theorem splitSlash_append_slash (a b : PyStr) :
    splitSlash (a ++ '/' :: b) = splitSlash a ++ splitSlash b := by
  induction a with
  | nil => rw [List.nil_append, splitSlash_cons_slash]; simp [splitSlash]
  | cons c a ih =>
    by_cases hc : c = '/'
    · subst hc
      rw [List.cons_append, splitSlash_cons_slash, splitSlash_cons_slash, ih,
        List.cons_append]
    · rw [List.cons_append, splitSlash_cons_of_ne c _ hc, splitSlash_cons_of_ne c _ hc, ih]
      cases h : splitSlash a with
      | nil => exact absurd h (splitSlash_ne_nil a)
      | cons w ws => simp

theorem splitSlash_no_slash (s : PyStr) (h : '/' ∉ s) : splitSlash s = [s] := by
  induction s with
  | nil => simp [splitSlash]
  | cons c rest ih =>
    have hc : c ≠ '/' := fun hh => h (hh ▸ List.mem_cons_self c rest)
    have hr : '/' ∉ rest := fun hh => h (List.mem_cons_of_mem c hh)
    rw [splitSlash_cons_of_ne c rest hc, ih hr]
    simp

theorem splitSlash_joinSlash (cs : List PyStr) (hn : cs ≠ [])
    (h : ∀ c ∈ cs, '/' ∉ c) : splitSlash (joinSlash cs) = cs := by
  induction cs with
  | nil => exact absurd rfl hn
  | cons c cs ih =>
    cases cs with
    | nil => exact splitSlash_no_slash c (h c (List.mem_cons_self c []))
    | cons c' t =>
      have : joinSlash (c :: c' :: t) = c ++ '/' :: joinSlash (c' :: t) := rfl
      rw [this, splitSlash_append_slash,
        splitSlash_no_slash c (h c (List.mem_cons_self c _)),
        ih (by simp) (fun x hx => h x (List.mem_cons_of_mem c hx))]
      simp

theorem joinSlash_append (cs ds : List PyStr) (hc : cs ≠ []) (hd : ds ≠ []) :
    joinSlash (cs ++ ds) = joinSlash cs ++ '/' :: joinSlash ds := by
  induction cs with
  | nil => exact absurd rfl hc
  | cons c cs ih =>
    cases cs with
    | nil =>
      cases ds with
      | nil => exact absurd rfl hd
      | cons d t => simp [joinSlash]
    | cons c' t =>
      have h1 : joinSlash (c :: c' :: t) = c ++ '/' :: joinSlash (c' :: t) := rfl
      have h2 : (c :: c' :: t) ++ ds = c :: ((c' :: t) ++ ds) := rfl
      have h3 : joinSlash (c :: ((c' :: t) ++ ds)) =
          c ++ '/' :: joinSlash ((c' :: t) ++ ds) := by
        cases ds with
        | nil => exact absurd rfl hd
        | cons d u => rfl
      rw [h2, h3, ih (by simp), h1]
      simp

theorem resolveAux_good (cs : List PyStr) :
    ∀ acc, (∀ c ∈ cs, GoodComp c) → resolveAux acc cs = acc.reverse ++ cs := by
  induction cs with
  | nil => intro acc _; simp [resolveAux]
  | cons c cs ih =>
    intro acc h
    have hg : GoodComp c := h c (List.mem_cons_self c cs)
    obtain ⟨h1, h2, h3, _⟩ := hg
    rw [resolveAux]
    rw [if_neg (by simp [h1, h2]), if_neg h3]
    rw [ih (c :: acc) (fun x hx => h x (List.mem_cons_of_mem c hx))]
    simp

theorem goodComp_no_slash {c : PyStr} (h : GoodComp c) : '/' ∉ c := h.2.2.2

theorem resolvePath_clean {s : PyStr} (h : CleanAbs s) : resolvePath s = s := by
  obtain ⟨cs, hn, hg, rfl⟩ := h
  rw [resolvePath, splitSlash_cons_slash,
    splitSlash_joinSlash cs hn (fun c hc => goodComp_no_slash (hg c hc))]
  rw [resolveAux]
  simp only [if_pos (Or.inl rfl)]
  rw [resolveAux_good cs [] hg]
  simp

theorem keepComp_of_good {c : PyStr} (h : GoodComp c) : keepComp c = true := by
  simp [keepComp, h.1, h.2.1]

theorem pathParts_clean_abs {cs : List PyStr} (hn : cs ≠ [])
    (hg : ∀ c ∈ cs, GoodComp c) : pathParts ('/' :: joinSlash cs) = cs := by
  rw [pathParts, splitSlash_cons_slash,
    splitSlash_joinSlash cs hn (fun c hc => goodComp_no_slash (hg c hc))]
  rw [List.filter_cons]
  simp only [keepComp, decide_eq_true_eq]
  rw [if_neg (by simp)]
  exact List.filter_eq_self.mpr (fun c hc => keepComp_of_good (hg c hc))

theorem strPath_clean {s : PyStr} (h : CleanAbs s) : strPath s = s := by
  obtain ⟨cs, hn, hg, rfl⟩ := h
  rw [strPath, if_pos (by simp), pathParts_clean_abs hn hg]

theorem joinSlash_ends {cs : List PyStr} (hn : cs ≠ [])
    (hg : ∀ c ∈ cs, GoodComp c) :
    ∃ u ch, ch ≠ '/' ∧ joinSlash cs = u ++ [ch] := by
  induction cs with
  | nil => exact absurd rfl hn
  | cons c cs ih =>
    cases cs with
    | nil =>
      have hgc := hg c (List.mem_cons_self c [])
      have hne : c ≠ [] := hgc.1
      refine ⟨c.dropLast, c.getLast hne, ?_, ?_⟩
      · exact fun hh => goodComp_no_slash hgc (hh ▸ List.getLast_mem hne)
      · simpa [joinSlash] using (List.dropLast_append_getLast hne).symm
    | cons c' t =>
      obtain ⟨u, ch, hch, hu⟩ := ih (by simp)
        (fun x hx => hg x (List.mem_cons_of_mem c hx))
      exact ⟨c ++ '/' :: u, ch, hch, by
        have : joinSlash (c :: c' :: t) = c ++ '/' :: joinSlash (c' :: t) := rfl
        rw [this, hu]; simp⟩

theorem joinSlash_head {cs : List PyStr} (hn : cs ≠ [])
    (hg : ∀ c ∈ cs, GoodComp c) :
    ∃ ch u, ch ≠ '/' ∧ joinSlash cs = ch :: u := by
  cases cs with
  | nil => exact absurd rfl hn
  | cons c cs =>
    have hgc := hg c (List.mem_cons_self c cs)
    obtain ⟨ch, c', rfl⟩ : ∃ ch c', c = ch :: c' := by
      cases c with
      | nil => exact absurd rfl hgc.1
      | cons ch c' => exact ⟨ch, c', rfl⟩
    have hch : ch ≠ '/' :=
      fun hh => goodComp_no_slash hgc (hh ▸ List.mem_cons_self ch c')
    cases cs with
    | nil => exact ⟨ch, c', hch, rfl⟩
    | cons d t => exact ⟨ch, c' ++ '/' :: joinSlash (d :: t), hch, rfl⟩

theorem rstripSlash_last_ne {u : PyStr} {ch : Char} (hch : ch ≠ '/') :
    rstripSlash (u ++ [ch]) = u ++ [ch] := by
  rw [rstripSlash]
  rw [List.reverse_append]
  simp only [List.reverse_cons, List.reverse_nil, List.nil_append,
    List.cons_append, List.dropWhile_cons]
  rw [if_neg (by simp [hch])]
  simp

theorem rstripSlash_clean {s : PyStr} (h : CleanAbs s) : rstripSlash s = s := by
  obtain ⟨cs, hn, hg, rfl⟩ := h
  obtain ⟨u, ch, hch, hu⟩ := joinSlash_ends hn hg
  rw [hu]
  have : ('/' :: (u ++ [ch])) = ('/' :: u) ++ [ch] := by simp
  rw [this, rstripSlash_last_ne hch]

theorem lstripSlash_clean_rel {s : PyStr} (h : CleanRel s) : lstripSlash s = s := by
  obtain ⟨cs, hn, hg, rfl⟩ := h
  obtain ⟨ch, u, hch, hu⟩ := joinSlash_head hn hg
  rw [hu, lstripSlash, List.dropWhile_cons, if_neg (by simp [hch])]

theorem cleanAbs_append {a r : PyStr} (ha : CleanAbs a) (hr : CleanRel r) :
    CleanAbs (a ++ '/' :: r) := by
  obtain ⟨cs, hcn, hcg, rfl⟩ := ha
  obtain ⟨rs, hrn, hrg, rfl⟩ := hr
  refine ⟨cs ++ rs, by simp [hcn], ?_, ?_⟩
  · intro c hc
    rcases List.mem_append.mp hc with h1 | h2
    · exact hcg c h1
    · exact hrg c h2
  · rw [joinSlash_append cs rs hcn hrn]; simp

theorem insStable_perm (f : α → α → Bool) (x : α) (l : List α) :
    List.Perm (insStable f x l) (x :: l) := by
  induction l with
  | nil => rfl
  | cons y ys ih =>
    rw [insStable]
    by_cases h : f y x = true
    · rw [if_pos h]
    · rw [if_neg h]
      exact (ih.cons y).trans (List.Perm.swap x y ys)

theorem stableSortDesc_perm (f : α → α → Bool) (l : List α) :
    List.Perm (stableSortDesc f l) l := by
  induction l with
  | nil => rfl
  | cons x xs ih =>
    have : stableSortDesc f (x :: xs) = insStable f x (stableSortDesc f xs) := rfl
    rw [this]
    exact (insStable_perm f x _).trans (ih.cons x)

theorem mem_stableSortDesc {f : α → α → Bool} {l : List α} {a : α} :
    a ∈ stableSortDesc f l ↔ a ∈ l :=
  (stableSortDesc_perm f l).mem_iff

theorem pairwise_insStable (f : α → α → Bool)
    (htot : ∀ a b, f a b = true ∨ f b a = true)
    (htrans : ∀ a b c, f a b = true → f b c = true → f a c = true)
    (x : α) (l : List α) (hl : l.Pairwise (fun a b => f b a = true)) :
    (insStable f x l).Pairwise (fun a b => f b a = true) := by
  induction l with
  | nil => simp [insStable]
  | cons y ys ih =>
    rw [insStable]
    rcases List.pairwise_cons.mp hl with ⟨hy, hys⟩
    by_cases h : f y x = true
    · rw [if_pos h]
      refine List.pairwise_cons.mpr ⟨?_, hl⟩
      intro z hz
      rcases List.mem_cons.mp hz with rfl | hz'
      · exact h
      · exact htrans z y x (hy z hz') h
    · rw [if_neg h]
      refine List.pairwise_cons.mpr ⟨?_, ih hys⟩
      intro z hz
      rcases List.mem_cons.mp ((insStable_perm f x ys).mem_iff.mp hz) with rfl | hz'
      · rcases htot z y with h1 | h1
        · exact h1
        · exact absurd h1 h
      · exact hy z hz'

theorem pairwise_stableSortDesc (f : α → α → Bool)
    (htot : ∀ a b, f a b = true ∨ f b a = true)
    (htrans : ∀ a b c, f a b = true → f b c = true → f a c = true)
    (l : List α) :
    (stableSortDesc f l).Pairwise (fun a b => f b a = true) := by
  induction l with
  | nil => simp [stableSortDesc]
  | cons x xs ih => exact pairwise_insStable f htot htrans x _ ih

theorem find?_eq_some_of_first {pred : α → Bool} {R : α → α → Prop}
    {l : List α} (hp : l.Pairwise R) {x : α} (hx : x ∈ l)
    (hpx : pred x = true)
    (huniq : ∀ y ∈ l, pred y = true → R y x → y = x) :
    l.find? pred = some x := by
  induction l with
  | nil => exact absurd hx (List.not_mem_nil x)
  | cons a t ih =>
    rcases List.pairwise_cons.mp hp with ⟨ha, ht⟩
    by_cases hpa : pred a = true
    · rw [List.find?_cons_of_pos _ hpa]
      rcases List.mem_cons.mp hx with rfl | hxt
      · rfl
      · exact congrArg some (huniq a (List.mem_cons_self a t) hpa (ha x hxt))
    · rw [List.find?_cons_of_neg _ hpa]
      have hxt : x ∈ t := by
        rcases List.mem_cons.mp hx with rfl | hxt
        · exact absurd hpx hpa
        · exact hxt
      exact ih ht hxt
        (fun y hy hpy hr => huniq y (List.mem_cons_of_mem a hy) hpy hr)

theorem find?_rel_of_pairwise {pred : α → Bool} {R : α → α → Prop}
    {l : List α} (hp : l.Pairwise R) {x : α} (hf : l.find? pred = some x) :
    ∀ y ∈ l, pred y = true → y = x ∨ R x y := by
  induction l with
  | nil => simp at hf
  | cons a t ih =>
    rcases List.pairwise_cons.mp hp with ⟨ha, ht⟩
    by_cases hpa : pred a = true
    · rw [List.find?_cons_of_pos _ hpa] at hf
      have hax : a = x := by injection hf
      subst hax
      intro y hy hpy
      rcases List.mem_cons.mp hy with rfl | hyt
      · exact Or.inl rfl
      · exact Or.inr (ha y hyt)
    · rw [List.find?_cons_of_neg _ hpa] at hf
      intro y hy hpy
      rcases List.mem_cons.mp hy with rfl | hyt
      · exact absurd hpy hpa
      · exact ih ht hf y hyt hpy

theorem pairwise_sortedMappings (m : List (PyStr × PyStr)) :
    (sortedMappings m).Pairwise (fun a b => lenLE b a = true) :=
  pairwise_stableSortDesc lenLE
    (fun a b => by rcases le_total a.1.length b.1.length with h | h <;> simp [lenLE, h])
    (fun a b c h1 h2 => by
      simp only [lenLE, decide_eq_true_eq] at h1 h2 ⊢; exact le_trans h1 h2) m

theorem find?_max_len {m : List (PyStr × PyStr)} {pred : PyStr × PyStr → Bool}
    {x : PyStr × PyStr} (hfind : (sortedMappings m).find? pred = some x) :
    ∀ y ∈ m, pred y = true → y.1.length ≤ x.1.length := by
  intro y hy hpy
  have hy' : y ∈ sortedMappings m := mem_stableSortDesc.mpr hy
  rcases find?_rel_of_pairwise (pairwise_sortedMappings m) hfind y hy' hpy with
    rfl | hr
  · exact le_refl _
  · simpa [lenLE] using hr

theorem find?_congr_mem (p q : α → Bool) (l : List α)
    (hpq : ∀ y ∈ l, p y = q y) : l.find? p = l.find? q := by
  induction l with
  | nil => rfl
  | cons a t ih =>
    have ha := hpq a (List.mem_cons_self a t)
    by_cases hpa : p a = true
    · rw [List.find?_cons_of_pos _ hpa, List.find?_cons_of_pos _ (ha ▸ hpa)]
    · rw [List.find?_cons_of_neg _ hpa, List.find?_cons_of_neg _ (ha ▸ hpa)]
      exact ih (fun y hy => hpq y (List.mem_cons_of_mem a hy))

theorem nodup_keys_val_eq {m : List (PyStr × PyStr)}
    (hnd : (m.map Prod.fst).Nodup) {h c c' : PyStr}
    (h1 : (h, c) ∈ m) (h2 : (h, c') ∈ m) : c = c' := by
  induction m with
  | nil => exact absurd h1 (List.not_mem_nil _)
  | cons a t ih =>
    rw [List.map_cons, List.nodup_cons] at hnd
    rcases List.mem_cons.mp h1 with heq1 | h1t
    · rcases List.mem_cons.mp h2 with heq2 | h2t
      · rw [← heq1] at heq2; exact (Prod.mk.injEq .. ▸ heq2 : _ ∧ _).2.symm
      · exfalso
        exact hnd.1 (heq1 ▸ (List.mem_map.mpr ⟨(h, c'), h2t, rfl⟩))
    · rcases List.mem_cons.mp h2 with heq2 | h2t
      · exfalso
        exact hnd.1 (heq2 ▸ (List.mem_map.mpr ⟨(h, c), h1t, rfl⟩))
      · exact ih hnd.2 h1t h2t

theorem pathParts_append (a b : PyStr) :
    pathParts (a ++ '/' :: b) = pathParts a ++ pathParts b := by
  rw [pathParts, splitSlash_append_slash, List.filter_append]; rfl

/-- The host prefixes of no two distinct rules are nested (the notion checked
by `validate_mapping`, in both directions). -/
abbrev HostsNonOverlapping (m : List (PyStr × PyStr)) : Prop :=
  ∀ a ∈ m, ∀ b ∈ m, a.1 ≠ b.1 →
    isRelativeTo (resolvePath a.1) (resolvePath b.1) = false

/-- No container prefix of one rule is a character-level prefix of another
rule's container prefix. -/
abbrev ContainersPrefixFree (m : List (PyStr × PyStr)) : Prop :=
  m.Pairwise (fun a b => ¬ (a.2 <+: b.2) ∧ ¬ (b.2 <+: a.2))

theorem isRelativeTo_of_extends {h w : PyStr} (hcl : CleanAbs h) :
    isRelativeTo (h ++ '/' :: w) h = true := by
  obtain ⟨cs, hn, hg, rfl⟩ := hcl
  rw [isRelativeTo]
  have hparts : pathParts ('/' :: joinSlash cs) = cs := pathParts_clean_abs hn hg
  have : ('/' :: joinSlash cs) ++ '/' :: w = '/' :: (joinSlash cs ++ '/' :: w) := by simp
  rw [this]
  have h2 : pathParts ('/' :: (joinSlash cs ++ '/' :: w)) =
      pathParts ('/' :: joinSlash cs) ++ pathParts w := by
    have h3 : ('/' : Char) :: (joinSlash cs ++ '/' :: w) =
        ('/' :: joinSlash cs) ++ '/' :: w := by simp
    rw [h3, pathParts_append]
  rw [h2, hparts]
  exact List.isPrefixOf_iff_prefix.mpr (List.prefix_append cs (pathParts w))

theorem clean_rel_ne_nil {r : PyStr} (h : CleanRel r) : r ≠ [] := by
  obtain ⟨cs, hn, hg, rfl⟩ := h
  obtain ⟨ch, u, _, hu⟩ := joinSlash_head hn hg
  rw [hu]; simp

theorem lstripSlash_slash_rel {r : PyStr} (h : CleanRel r) :
    lstripSlash ('/' :: r) = r := by
  rw [lstripSlash, List.dropWhile_cons, if_pos (by simp)]
  exact lstripSlash_clean_rel h

theorem find?_container_mapped {m : List (PyStr × PyStr)} {h c p : PyStr}
    (hmem : (h, c) ∈ m) (hcpf : ContainersPrefixFree m) (hpre : c <+: p) :
    (sortedMappings m).find? (fun hc => hc.2.isPrefixOf p) = some (h, c) := by
  apply find?_eq_some_of_first (pairwise_sortedMappings m)
    (mem_stableSortDesc.mpr hmem)
  · exact List.isPrefixOf_iff_prefix.mpr hpre
  · intro y hy hpy _
    have hy' : y ∈ m := mem_stableSortDesc.mp hy
    have hyp : y.2 <+: p := List.isPrefixOf_iff_prefix.mp hpy
    by_contra hne
    have hsymm : Symmetric
        (fun a b : PyStr × PyStr => ¬ (a.2 <+: b.2) ∧ ¬ (b.2 <+: a.2)) :=
      fun a b hab => ⟨hab.2, hab.1⟩
    have hpair := List.Pairwise.forall hsymm hcpf hy' hmem hne
    rcases List.prefix_or_prefix_of_prefix hyp hpre with h1 | h1
    · exact hpair.1 h1
    · exact hpair.2 h1

theorem container_to_host_mapped_rel {m : List (PyStr × PyStr)} {h c rel : PyStr}
    (hmem : (h, c) ∈ m) (hch : CleanAbs h) (hcc : CleanAbs c)
    (hrel : CleanRel rel) (hcpf : ContainersPrefixFree m) :
    container_to_host m (c ++ '/' :: rel) = h ++ '/' :: rel := by
  have hmne : m ≠ [] := List.ne_nil_of_mem hmem
  have hclean : CleanAbs (c ++ '/' :: rel) := cleanAbs_append hcc hrel
  simp only [container_to_host]
  rw [if_neg hmne, strPath_clean hclean,
    find?_container_mapped hmem hcpf (List.prefix_append c ('/' :: rel))]
  simp only [List.drop_left]
  rw [lstripSlash_slash_rel hrel, if_neg (clean_rel_ne_nil hrel),
    rstripSlash_clean hch]

theorem container_to_host_mapped_exact {m : List (PyStr × PyStr)} {h c : PyStr}
    (hmem : (h, c) ∈ m) (hch : CleanAbs h) (hcc : CleanAbs c)
    (hcpf : ContainersPrefixFree m) :
    container_to_host m c = h := by
  have hmne : m ≠ [] := List.ne_nil_of_mem hmem
  simp only [container_to_host]
  rw [if_neg hmne, strPath_clean hcc,
    find?_container_mapped hmem hcpf (List.prefix_refl c)]
  simp only [List.drop_length, lstripSlash, List.dropWhile_nil]
  rw [if_pos trivial, rstripSlash_clean hch]

theorem find?_host_mapped {m : List (PyStr × PyStr)} {h c q : PyStr}
    (hmem : (h, c) ∈ m) (hcleanH : ∀ y ∈ m, CleanAbs y.1)
    (hnd : (m.map Prod.fst).Nodup) (hq : resolvePath q = q) (hpre : h <+: q)
    (hext : ∀ y ∈ m, y.1 <+: q → h.length < y.1.length → False) :
    (sortedMappings m).find?
      (fun hc => (resolvePath hc.1).isPrefixOf (resolvePath q)) = some (h, c) := by
  rw [hq]
  rw [find?_congr_mem (fun hc => (resolvePath hc.1).isPrefixOf q)
    (fun hc => hc.1.isPrefixOf q) (sortedMappings m)
    (fun y hy => by
      simp only [resolvePath_clean (hcleanH y (mem_stableSortDesc.mp hy))])]
  apply find?_eq_some_of_first (pairwise_sortedMappings m)
    (mem_stableSortDesc.mpr hmem)
  · exact List.isPrefixOf_iff_prefix.mpr hpre
  · intro y hy hpy hr
    have hy' : y ∈ m := mem_stableSortDesc.mp hy
    have hyq : y.1 <+: q := List.isPrefixOf_iff_prefix.mp hpy
    have hlen : h.length ≤ y.1.length := by
      simpa [lenLE] using hr
    rcases lt_or_eq_of_le hlen with hlt | heq
    · exact absurd (hext y hy' hyq hlt) id
    · have h1 : h <+: y.1 :=
        List.prefix_of_prefix_length_le hpre hyq (le_of_eq heq)
      have h2 : h = y.1 := List.IsPrefix.eq_of_length h1 heq
      obtain ⟨y1, y2⟩ := y
      simp only at h2
      subst h2
      have : y2 = c := nodup_keys_val_eq hnd hy' hmem
      rw [this]

theorem host_to_container_mapped_exact {m : List (PyStr × PyStr)} {h c : PyStr}
    (hmem : (h, c) ∈ m) (hcleanH : ∀ y ∈ m, CleanAbs y.1) (hcc : CleanAbs c)
    (hnd : (m.map Prod.fst).Nodup) :
    host_to_container m h = c := by
  have hmne : m ≠ [] := List.ne_nil_of_mem hmem
  have hch : CleanAbs h := hcleanH (h, c) hmem
  have hq : resolvePath h = h := resolvePath_clean hch
  simp only [host_to_container]
  rw [if_neg hmne,
    find?_host_mapped hmem hcleanH hnd hq (List.prefix_refl h)
      (fun y _ hyq hlt =>
        absurd (List.IsPrefix.length_le hyq) (by omega))]
  simp only [hq, List.drop_length, lstripSlash, List.dropWhile_nil]
  rw [if_pos trivial, rstripSlash_clean hcc]

theorem host_to_container_mapped_rel {m : List (PyStr × PyStr)} {h c rel : PyStr}
    (hmem : (h, c) ∈ m) (hcleanH : ∀ y ∈ m, CleanAbs y.1) (hcc : CleanAbs c)
    (hrel : CleanRel rel) (hnd : (m.map Prod.fst).Nodup)
    (hno : HostsNonOverlapping m) :
    host_to_container m (h ++ '/' :: rel) = c ++ '/' :: rel := by
  have hmne : m ≠ [] := List.ne_nil_of_mem hmem
  have hch : CleanAbs h := hcleanH (h, c) hmem
  have hclean : CleanAbs (h ++ '/' :: rel) := cleanAbs_append hch hrel
  have hq : resolvePath (h ++ '/' :: rel) = h ++ '/' :: rel :=
    resolvePath_clean hclean
  have hext : ∀ y ∈ m, y.1 <+: h ++ '/' :: rel → h.length < y.1.length → False := by
    intro y hy hyq hlt
    obtain ⟨y1, y2⟩ := y
    simp only at hyq hlt
    have h1 : h <+: y1 :=
      List.prefix_of_prefix_length_le (List.prefix_append h ('/' :: rel)) hyq
        (le_of_lt hlt)
    obtain ⟨t, rfl⟩ := h1
    have htne : t ≠ [] := by
      intro hte
      rw [hte] at hlt
      simp at hlt
    obtain ⟨u, hu⟩ := hyq
    rw [List.append_assoc] at hu
    have htu : t ++ u = '/' :: rel := List.append_cancel_left hu
    obtain ⟨w, rfl⟩ : ∃ w, t = '/' :: w := by
      cases t with
      | nil => exact absurd rfl htne
      | cons a t' =>
        refine ⟨t', ?_⟩
        have : a = '/' := by
          have h5 := htu
          rw [List.cons_append] at h5
          exact (List.cons.injEq .. ▸ h5 : _ ∧ _).1
        rw [this]
    have hrelTo : isRelativeTo (h ++ '/' :: w) h = true :=
      isRelativeTo_of_extends hch
    have hne1 : (h ++ '/' :: w, y2).1 ≠ h := by
      simp only [ne_eq]
      intro hcontra
      have := congrArg List.length hcontra
      simp at this
    have hfalse := hno (h ++ '/' :: w, y2) hy (h, c) hmem hne1
    simp only [resolvePath_clean (hcleanH _ hy), resolvePath_clean hch] at hfalse
    rw [hrelTo] at hfalse
    simp at hfalse
  simp only [host_to_container]
  rw [if_neg hmne,
    find?_host_mapped hmem hcleanH hnd hq (List.prefix_append h ('/' :: rel)) hext]
  simp only [resolvePath_clean hch, hq, List.drop_left]
  rw [lstripSlash_slash_rel hrel, if_neg (clean_rel_ne_nil hrel),
    rstripSlash_clean hcc]

/-- Claim C1 (amended): the round-trip law holds for rule sets whose host
and container prefixes are canonical absolute paths, with distinct,
non-nested host prefixes and container prefixes of which none is a
character-level prefix of another, for every path of the form
`container_prefix` or `container_prefix/<clean relative path>`. -/
theorem c1_round_trip_amended {m : List (PyStr × PyStr)} {h c p : PyStr}
    (hmem : (h, c) ∈ m)
    (hclean : ∀ y ∈ m, CleanAbs y.1 ∧ CleanAbs y.2)
    (hnd : (m.map Prod.fst).Nodup)
    (hno : HostsNonOverlapping m)
    (hcpf : ContainersPrefixFree m)
    (hp : p = c ∨ ∃ rel, CleanRel rel ∧ p = c ++ '/' :: rel) :
    host_to_container m (container_to_host m p) = p := by
  have hcleanH : ∀ y ∈ m, CleanAbs y.1 := fun y hy => (hclean y hy).1
  have hch : CleanAbs h := (hclean (h, c) hmem).1
  have hcc : CleanAbs c := (hclean (h, c) hmem).2
  rcases hp with rfl | ⟨rel, hrel, rfl⟩
  · rw [container_to_host_mapped_exact hmem hch hcc hcpf]
    exact host_to_container_mapped_exact hmem hcleanH hcc hnd
  · rw [container_to_host_mapped_rel hmem hch hcc hrel hcpf]
    exact host_to_container_mapped_rel hmem hcleanH hcc hrel hnd hno

/-- Claim C1, counterexample to the claim as stated: the rule set
`{"/a": "/c", "/b": "/cc"}` has non-overlapping host prefixes, the path
`"/cc/f"` lies under the container prefix `"/cc"`, yet the round trip
returns `"/c/c/f"` (the container prefix `"/c"` of the other rule is a
character-level prefix of `"/cc/f"` and the rules tie on host length). -/
theorem c1_counterexample :
    HostsNonOverlapping [(pstr "/a", pstr "/c"), (pstr "/b", pstr "/cc")] ∧
    (pstr "/a") ≠ (pstr "/b") ∧
    (pstr "/b", pstr "/cc") ∈ [(pstr "/a", pstr "/c"), (pstr "/b", pstr "/cc")] ∧
    pstr "/cc/f" = pstr "/cc" ++ '/' :: pstr "f" ∧
    host_to_container [(pstr "/a", pstr "/c"), (pstr "/b", pstr "/cc")]
      (container_to_host [(pstr "/a", pstr "/c"), (pstr "/b", pstr "/cc")]
        (pstr "/cc/f")) = pstr "/c/c/f" ∧
    pstr "/c/c/f" ≠ pstr "/cc/f" := by
  refine ⟨?_, ?_, ?_, ?_, ?_, ?_⟩ <;> decide

/-- Claim C1, witness: the amended round-trip law applied to the concrete
rule set `{"/data": "/d"}` and path `"/d/x"`. -/
theorem c1_witness :
    host_to_container [(pstr "/data", pstr "/d")]
      (container_to_host [(pstr "/data", pstr "/d")] (pstr "/d/x")) =
      pstr "/d/x" := by
  have hclean : ∀ y ∈ [(pstr "/data", pstr "/d")], CleanAbs y.1 ∧ CleanAbs y.2 := by
    intro y hy
    rw [List.mem_singleton] at hy
    subst hy
    exact ⟨⟨[pstr "data"], by decide, by decide, by decide⟩,
      ⟨[pstr "d"], by decide, by decide, by decide⟩⟩
  exact c1_round_trip_amended (List.mem_singleton.mpr rfl) hclean
    (by decide) (by decide) (by decide)
    (Or.inr ⟨pstr "x", ⟨[pstr "x"], by decide, by decide, by decide⟩, by decide⟩)

/-- Claim C9: prefix matching in `host_to_container` and `is_path_mapped`
is a raw character-level `startswith` with no path-separator boundary
check: the rule `"/mnt/data" → "/data"` is applied to
`"/mnt/database/file"` even though `"/mnt/data"` is not a path-component
ancestor of it, and `is_path_mapped` reports `true`. -/
theorem c9_raw_startswith :
    host_to_container [(pstr "/mnt/data", pstr "/data")]
      (pstr "/mnt/database/file") = pstr "/data/base/file" ∧
    is_path_mapped [(pstr "/mnt/data", pstr "/data")]
      (pstr "/mnt/database/file") = true ∧
    isRelativeTo (resolvePath (pstr "/mnt/database/file"))
      (resolvePath (pstr "/mnt/data")) = false := by
  refine ⟨?_, ?_, ?_⟩ <;> decide

/-- Claim C7: `validate_mapping` reports an issue for every ordered pair of
distinct rules whose host prefixes are nested (is-relative-to checked in
both directions), a warning for every configured host prefix that does not
exist on disk, and `is_valid` is true iff `issues` is empty; in particular
the rules `{"/a": "/x", "/a/b": "/y"}` yield a nested-paths issue and
`is_valid = false` whatever the filesystem contains. -/
theorem c7_validate :
    (∀ (m : List (PyStr × PyStr)) (exFn : PyStr → Bool),
      (∀ hc ∈ m, ∀ hc' ∈ m, hc.1 ≠ hc'.1 →
        (isRelativeTo (resolvePath hc.1) (resolvePath hc'.1) = true ∨
         isRelativeTo (resolvePath hc'.1) (resolvePath hc.1) = true) →
        overlapMsg hc.1 hc'.1 ∈ (validate_mapping m exFn).issues) ∧
      (∀ hc ∈ m, exFn hc.1 = false →
        warnMsg hc.1 ∈ (validate_mapping m exFn).warnings) ∧
      ((validate_mapping m exFn).is_valid = true ↔
        (validate_mapping m exFn).issues = [])) ∧
    (∀ exFn : PyStr → Bool,
      (validate_mapping [(pstr "/a", pstr "/x"), (pstr "/a/b", pstr "/y")]
          exFn).is_valid = false ∧
      overlapMsg (pstr "/a") (pstr "/a/b") ∈
        (validate_mapping [(pstr "/a", pstr "/x"), (pstr "/a/b", pstr "/y")]
          exFn).issues) := by
  constructor
  · intro m exFn
    refine ⟨?_, ?_, ?_⟩
    · intro hc hmem hc' hmem' hne hrel
      simp only [validate_mapping]
      rw [List.mem_flatMap]
      refine ⟨hc, hmem, ?_⟩
      rw [List.mem_map]
      refine ⟨hc', ?_, rfl⟩
      rw [List.mem_filter]
      refine ⟨hmem', ?_⟩
      simp only [Bool.and_eq_true, decide_eq_true_eq, Bool.or_eq_true]
      exact ⟨hne, hrel⟩
    · intro hc hmem hex
      simp only [validate_mapping]
      rw [List.mem_map]
      refine ⟨hc, ?_, rfl⟩
      rw [List.mem_filter]
      exact ⟨hmem, by rw [hex]; rfl⟩
    · simp only [validate_mapping]
      rw [decide_eq_true_iff, List.length_eq_zero]
  · intro exFn
    constructor
    · simp only [validate_mapping]
      decide
    · simp only [validate_mapping]
      decide

/-- Claim C7, witness: the overlap issue for the pair `("/a", "/a/b")`
obtained from the first part of the theorem at a concrete rule set and
filesystem. -/
theorem c7_witness :
    overlapMsg (pstr "/a") (pstr "/a/b") ∈
      (validate_mapping [(pstr "/a", pstr "/x"), (pstr "/a/b", pstr "/y")]
        (fun _ => false)).issues := by
  exact (c7_validate.1 [(pstr "/a", pstr "/x"), (pstr "/a/b", pstr "/y")]
      (fun _ => false)).1
    (pstr "/a", pstr "/x") (by decide) (pstr "/a/b", pstr "/y") (by decide)
    (by decide) (by decide)

/-- Claim C2 (amended): for a nonempty rule set whose host prefixes are
already canonical, `host_to_container` canonicalizes the path and applies
the first rule in host-length-descending order whose host prefix is a
character-level prefix of it — a rule of maximal host-prefix length among
all matching rules — returning the stripped container prefix joined with
the leading-separator-stripped remainder (the stripped container prefix
alone when the remainder is empty), and returns the canonicalized path
unchanged when no rule matches; in particular
`{"/a": "/x", "/a/b": "/y"}` maps `"/a/b/c"` to `"/y/c"`.  (As stated the
claim fails: rules are sorted by raw prefix length, so a non-canonical
rule such as `"/a/./b"` can beat the longest canonicalized match, and an
empty rule set returns the raw path without canonicalizing.) -/
theorem c2_host_to_container_amended :
    (∀ (m : List (PyStr × PyStr)) (p : PyStr), m ≠ [] →
      (∀ y ∈ m, resolvePath y.1 = y.1) →
      ((∃ hc, hc ∈ m ∧ hc.1 <+: resolvePath p ∧
        (∀ y ∈ m, y.1 <+: resolvePath p → y.1.length ≤ hc.1.length) ∧
        host_to_container m p =
          (if lstripSlash ((resolvePath p).drop hc.1.length) = []
           then rstripSlash hc.2
           else rstripSlash hc.2 ++ '/' ::
             lstripSlash ((resolvePath p).drop hc.1.length))) ∨
       ((∀ y ∈ m, ¬ (y.1 <+: resolvePath p)) ∧
        host_to_container m p = resolvePath p))) ∧
    host_to_container [(pstr "/a", pstr "/x"), (pstr "/a/b", pstr "/y")]
      (pstr "/a/b/c") = pstr "/y/c" := by
  constructor
  · intro m p hm hcanon
    simp only [host_to_container]
    rw [if_neg hm]
    rw [find?_congr_mem (fun hc => (resolvePath hc.1).isPrefixOf (resolvePath p))
      (fun hc => hc.1.isPrefixOf (resolvePath p)) (sortedMappings m)
      (fun y hy => by
        simp only [hcanon y (mem_stableSortDesc.mp hy)])]
    cases hfind : (sortedMappings m).find?
        (fun hc => hc.1.isPrefixOf (resolvePath p)) with
    | none =>
      refine Or.inr ⟨?_, rfl⟩
      intro y hy hpre
      exact List.find?_eq_none.mp hfind y (mem_stableSortDesc.mpr hy)
        (List.isPrefixOf_iff_prefix.mpr hpre)
    | some hc =>
      have hmem : hc ∈ m := mem_stableSortDesc.mp (List.mem_of_find?_eq_some hfind)
      refine Or.inl ⟨hc, hmem, ?_, ?_, ?_⟩
      · have hp1 := List.find?_some hfind
        simp only [] at hp1
        exact List.isPrefixOf_iff_prefix.mp hp1
      · intro y hy hpre
        exact find?_max_len hfind y hy (List.isPrefixOf_iff_prefix.mpr hpre)
      · rw [← hcanon hc hmem]
  · decide

/-- Claim C2, counterexample: with rules `{"/a/./b": "/x", "/a/b/c": "/y"}`
(equal raw lengths, insertion-order tie) and path `"/a/b/c/d"`, the rule
`"/a/./b"` is applied although the canonicalized prefix `"/a/b/c"` is a
strictly longer match, so the result is `"/x/c/d"`, not `"/y/d"`; and with
an empty rule set the raw path `"/a/../b"` is returned even though its
canonical form is `"/b"`. -/
theorem c2_counterexample :
    (resolvePath (pstr "/a/./b")).isPrefixOf (resolvePath (pstr "/a/b/c/d")) = true ∧
    (resolvePath (pstr "/a/b/c")).isPrefixOf (resolvePath (pstr "/a/b/c/d")) = true ∧
    (resolvePath (pstr "/a/./b")).length < (resolvePath (pstr "/a/b/c")).length ∧
    host_to_container [(pstr "/a/./b", pstr "/x"), (pstr "/a/b/c", pstr "/y")]
      (pstr "/a/b/c/d") = pstr "/x/c/d" ∧
    pstr "/x/c/d" ≠ pstr "/y/d" ∧
    host_to_container [] (pstr "/a/../b") = pstr "/a/../b" ∧
    resolvePath (pstr "/a/../b") = pstr "/b" ∧
    pstr "/a/../b" ≠ pstr "/b" := by
  refine ⟨?_, ?_, ?_, ?_, ?_, ?_, ?_, ?_⟩ <;> decide

/-- Claim C2, witness: the characterization applied to the rule set
`{"/a": "/x", "/a/b": "/y"}` and path `"/a/b/c"`. -/
theorem c2_witness :
    (∃ hc, hc ∈ [(pstr "/a", pstr "/x"), (pstr "/a/b", pstr "/y")] ∧
      hc.1 <+: resolvePath (pstr "/a/b/c") ∧
      (∀ y ∈ [(pstr "/a", pstr "/x"), (pstr "/a/b", pstr "/y")],
        y.1 <+: resolvePath (pstr "/a/b/c") → y.1.length ≤ hc.1.length) ∧
      host_to_container [(pstr "/a", pstr "/x"), (pstr "/a/b", pstr "/y")]
        (pstr "/a/b/c") =
        (if lstripSlash ((resolvePath (pstr "/a/b/c")).drop hc.1.length) = []
         then rstripSlash hc.2
         else rstripSlash hc.2 ++ '/' ::
           lstripSlash ((resolvePath (pstr "/a/b/c")).drop hc.1.length))) ∨
    ((∀ y ∈ [(pstr "/a", pstr "/x"), (pstr "/a/b", pstr "/y")],
      ¬ (y.1 <+: resolvePath (pstr "/a/b/c"))) ∧
     host_to_container [(pstr "/a", pstr "/x"), (pstr "/a/b", pstr "/y")]
       (pstr "/a/b/c") = resolvePath (pstr "/a/b/c")) :=
  c2_host_to_container_amended.1
    [(pstr "/a", pstr "/x"), (pstr "/a/b", pstr "/y")] (pstr "/a/b/c")
    (by decide) (by decide)

/-- Claim C5 (amended): `container_to_host` canonicalizes its argument with
the pure (non-filesystem) normalisation `strPath` and scans the rules in
descending order of HOST-prefix length (the one precomputed order, not
container-prefix length): the first rule whose container prefix is a
character-level prefix of the canonicalized path wins — hence a rule of
maximal host-prefix length among container-matching rules — and its
stripped host prefix is joined with the remainder; with no match the
canonicalized path is returned.  `".."` components survive this
canonicalisation, unlike filesystem resolution. -/
theorem c5_container_to_host_amended :
    (∀ (m : List (PyStr × PyStr)) (p : PyStr), m ≠ [] →
      ((∃ hc, hc ∈ m ∧ hc.2 <+: strPath p ∧
        (∀ y ∈ m, y.2 <+: strPath p → y.1.length ≤ hc.1.length) ∧
        container_to_host m p =
          (if lstripSlash ((strPath p).drop hc.2.length) = []
           then rstripSlash hc.1
           else rstripSlash hc.1 ++ '/' ::
             lstripSlash ((strPath p).drop hc.2.length))) ∨
       ((∀ y ∈ m, ¬ (y.2 <+: strPath p)) ∧
        container_to_host m p = strPath p))) ∧
    strPath (pstr "/a/../b/c") = pstr "/a/../b/c" ∧
    resolvePath (pstr "/a/../b/c") = pstr "/b/c" := by
  refine ⟨?_, by decide, by decide⟩
  intro m p hm
  simp only [container_to_host]
  rw [if_neg hm]
  cases hfind : (sortedMappings m).find? (fun hc => hc.2.isPrefixOf (strPath p)) with
  | none =>
    refine Or.inr ⟨?_, rfl⟩
    intro y hy hpre
    exact List.find?_eq_none.mp hfind y (mem_stableSortDesc.mpr hy)
      (List.isPrefixOf_iff_prefix.mpr hpre)
  | some hc =>
    have hmem : hc ∈ m := mem_stableSortDesc.mp (List.mem_of_find?_eq_some hfind)
    refine Or.inl ⟨hc, hmem, ?_, ?_, rfl⟩
    · have hp1 := List.find?_some hfind
      simp only [] at hp1
      exact List.isPrefixOf_iff_prefix.mp hp1
    · intro y hy hpre
      exact find?_max_len hfind y hy (List.isPrefixOf_iff_prefix.mpr hpre)

/-- Claim C5, counterexample: with rules `{"/aaaa": "/c", "/b": "/cc"}` and
path `"/cc/f"`, the longest matching container prefix is `"/cc"` (rule
host `"/b"`), but the scan order is by HOST-prefix length, so the rule
with container `"/c"` and the longer host `"/aaaa"` wins and the result is
`"/aaaa/c/f"`, not `"/b/f"`. -/
theorem c5_counterexample :
    container_to_host [(pstr "/aaaa", pstr "/c"), (pstr "/b", pstr "/cc")]
      (pstr "/cc/f") = pstr "/aaaa/c/f" ∧
    (pstr "/cc") <+: strPath (pstr "/cc/f") ∧
    (pstr "/c") <+: strPath (pstr "/cc/f") ∧
    (pstr "/c").length < (pstr "/cc").length ∧
    pstr "/aaaa/c/f" ≠ pstr "/b/f" := by
  refine ⟨?_, ?_, ?_, ?_, ?_⟩ <;> decide

/-- Claim C5, witness: the characterization applied to the rule set
`{"/host": "/cont"}` and path `"/cont/file"`. -/
theorem c5_witness :
    (∃ hc, hc ∈ [(pstr "/host", pstr "/cont")] ∧
      hc.2 <+: strPath (pstr "/cont/file") ∧
      (∀ y ∈ [(pstr "/host", pstr "/cont")],
        y.2 <+: strPath (pstr "/cont/file") → y.1.length ≤ hc.1.length) ∧
      container_to_host [(pstr "/host", pstr "/cont")] (pstr "/cont/file") =
        (if lstripSlash ((strPath (pstr "/cont/file")).drop hc.2.length) = []
         then rstripSlash hc.1
         else rstripSlash hc.1 ++ '/' ::
           lstripSlash ((strPath (pstr "/cont/file")).drop hc.2.length))) ∨
    ((∀ y ∈ [(pstr "/host", pstr "/cont")],
      ¬ (y.2 <+: strPath (pstr "/cont/file"))) ∧
     container_to_host [(pstr "/host", pstr "/cont")] (pstr "/cont/file") =
       strPath (pstr "/cont/file")) :=
  c5_container_to_host_amended.1 [(pstr "/host", pstr "/cont")]
    (pstr "/cont/file") (by decide)

theorem roundHalfEven_intCast (n : ℤ) : roundHalfEven (n : ℚ) = n := by
  rw [roundHalfEven]
  simp only [Int.floor_intCast, sub_self]
  norm_num

theorem pyRound2_int (n : ℤ) : pyRound2 (n : ℚ) = n := by
  rw [pyRound2]
  have h1 : (n : ℚ) * 100 = ((n * 100 : ℤ) : ℚ) := by push_cast; ring
  rw [h1, roundHalfEven_intCast]
  push_cast
  field_simp

theorem roundHalfEven_nonneg {q : ℚ} (h : 0 ≤ q) : 0 ≤ roundHalfEven q := by
  have h0 : (0 : ℤ) ≤ ⌊q⌋ := Int.floor_nonneg.mpr h
  rw [roundHalfEven]
  split_ifs <;> omega

theorem roundHalfEven_le {q : ℚ} {n : ℤ} (h : q < n) : roundHalfEven q ≤ n := by
  have hf : ⌊q⌋ < n := Int.floor_lt.mpr (by exact_mod_cast h)
  rw [roundHalfEven]
  split_ifs <;> omega

theorem pyRound2_nonneg {q : ℚ} (h : 0 ≤ q) : 0 ≤ pyRound2 q := by
  rw [pyRound2]
  apply div_nonneg _ (by norm_num)
  exact_mod_cast roundHalfEven_nonneg (by positivity)

theorem pyRound2_le_100 {q : ℚ} (h : q < 100) : pyRound2 q ≤ 100 := by
  rw [pyRound2]
  rw [div_le_iff₀ (by norm_num)]
  have h2 : roundHalfEven (q * 100) ≤ (10000 : ℤ) :=
    roundHalfEven_le (by push_cast; linarith)
  calc ((roundHalfEven (q * 100) : ℚ)) ≤ ((10000 : ℤ) : ℚ) := by exact_mod_cast h2
    _ = 100 * 100 := by norm_num

theorem standard_sizes_pos : ∀ s ∈ standard_sizes, 0 < s := by decide

/-- Claim C3 (amended): for positive `total_bytes` and every candidate
piece size `s`, the stored `waste_percentage` is non-negative; it is `0`
when `total_bytes mod s == 0` and otherwise equals
`(s − total_bytes mod s) / total_bytes × 100` rounded to two decimals; it
is at most 100 whenever `total_bytes ≥ s`.  (As stated the claim fails:
the value is not bounded by 100 in general — when `total_bytes < s` the
last-piece padding exceeds the content size and the percentage exceeds
100, e.g. 16284% for 100 bytes at a 16 KiB piece size.) -/
theorem c3_waste_amended (total_bytes piece_size piece_count file_count : Nat)
    (htb : 0 < total_bytes) (hs : piece_size ∈ standard_sizes) :
    0 ≤ (calcPieceEfficiency total_bytes piece_size piece_count
        file_count).waste_percentage ∧
    (total_bytes % piece_size = 0 →
      (calcPieceEfficiency total_bytes piece_size piece_count
        file_count).waste_percentage = 0) ∧
    (total_bytes % piece_size ≠ 0 →
      (calcPieceEfficiency total_bytes piece_size piece_count
          file_count).waste_percentage =
        pyRound2 (((piece_size - total_bytes % piece_size : Nat) : ℚ) /
          (total_bytes : ℚ) * 100)) ∧
    (piece_size ≤ total_bytes →
      (calcPieceEfficiency total_bytes piece_size piece_count
        file_count).waste_percentage ≤ 100) := by
  have hspos : 0 < piece_size := standard_sizes_pos piece_size hs
  simp only [calcPieceEfficiency]
  by_cases hmod : total_bytes % piece_size = 0
  · rw [if_pos hmod]
    have hz : piece_size - piece_size = 0 := Nat.sub_self piece_size
    rw [hz]
    have h0 : ((0 : Nat) : ℚ) / (total_bytes : ℚ) * 100 = ((0 : ℤ) : ℚ) := by
      norm_num
    rw [h0, pyRound2_int]
    refine ⟨by norm_num, fun _ => by norm_num, fun hne => absurd hmod hne, ?_⟩
    intro _
    norm_num
  · rw [if_neg hmod]
    have hr : 0 < total_bytes % piece_size := Nat.pos_of_ne_zero hmod
    have hrlt : total_bytes % piece_size < piece_size :=
      Nat.mod_lt total_bytes hspos
    have harg : (0 : ℚ) ≤
        ((piece_size - total_bytes % piece_size : Nat) : ℚ) /
          (total_bytes : ℚ) * 100 := by positivity
    refine ⟨pyRound2_nonneg harg, fun h => absurd h hmod, fun _ => rfl, ?_⟩
    intro hle
    apply pyRound2_le_100
    have hlt : ((piece_size - total_bytes % piece_size : Nat) : ℚ) <
        (total_bytes : ℚ) := by
      have : piece_size - total_bytes % piece_size < total_bytes := by omega
      exact_mod_cast this
    have htbq : (0 : ℚ) < (total_bytes : ℚ) := by exact_mod_cast htb
    have hq : ((piece_size - total_bytes % piece_size : Nat) : ℚ) /
        (total_bytes : ℚ) < 1 := (div_lt_one htbq).mpr hlt
    linarith [hq]

/-- Claim C3, counterexample to the claim as stated: at
`total_bytes = 100`, `s = 16384` (first candidate size) the computed
waste percentage is 16284, far outside `[0, 100)`. -/
theorem c3_counterexample :
    (calcPieceEfficiency 100 16384 1 1).waste_percentage = 16284 ∧
    ¬ ((calcPieceEfficiency 100 16384 1 1).waste_percentage < 100) := by
  have h : (calcPieceEfficiency 100 16384 1 1).waste_percentage = 16284 := by
    simp only [calcPieceEfficiency]
    norm_num
    exact_mod_cast pyRound2_int 16284
  exact ⟨h, by rw [h]; norm_num⟩

/-- Claim C3, witness: the amended statement applied at
`total_bytes = 20000`, `s = 16384`, where the remainder 3616 gives waste
`(16384 − 3616)/20000 × 100 = 63.84`. -/
theorem c3_witness :
    0 ≤ (calcPieceEfficiency 20000 16384 2 1).waste_percentage ∧
    (20000 % 16384 = 0 →
      (calcPieceEfficiency 20000 16384 2 1).waste_percentage = 0) ∧
    (20000 % 16384 ≠ 0 →
      (calcPieceEfficiency 20000 16384 2 1).waste_percentage =
        pyRound2 (((16384 - 20000 % 16384 : Nat) : ℚ) / (20000 : ℚ) * 100)) ∧
    (16384 ≤ 20000 →
      (calcPieceEfficiency 20000 16384 2 1).waste_percentage ≤ 100) :=
  c3_waste_amended 20000 16384 2 1 (by norm_num) (by decide)

theorem scanImprove_eq_find (rec : PieceOption) (t : Nat) (l : List PieceOption) :
    scanImprove rec t l =
      ((l.find? (fun o =>
          decide (natAbsDiff o.piece_count t < natAbsDiff rec.piece_count t ∧
            rec.efficiency_score * (95/100) ≤ o.efficiency_score))).getD rec) := by
  induction l with
  | nil => rfl
  | cons o rest ih =>
    rw [scanImprove]
    by_cases h : natAbsDiff o.piece_count t < natAbsDiff rec.piece_count t ∧
        rec.efficiency_score * (95/100) ≤ o.efficiency_score
    · rw [if_pos h, List.find?_cons_of_pos _ (by simpa using h)]
      rfl
    · rw [if_neg h, List.find?_cons_of_neg _ (by simpa using h), ih]

theorem scoreLE_total (a b : PieceOption) : scoreLE a b = true ∨ scoreLE b a = true := by
  rcases le_total a.efficiency_score b.efficiency_score with h | h <;>
    simp [scoreLE, h]

theorem scoreLE_trans (a b c : PieceOption) (h1 : scoreLE a b = true)
    (h2 : scoreLE b c = true) : scoreLE a c = true := by
  simp only [scoreLE, decide_eq_true_eq] at h1 h2 ⊢
  exact le_trans h1 h2

/-- Claim C4: the twelve options are sorted by overall score descending
(stable), the recommended pick starts as the top-scored option, and the
scan over all options in score order switches to — exactly — the first
option whose piece-count distance to the target is strictly smaller than
the top pick's and whose score is at least 95% of the top pick's score
(first-match-wins; the loop breaks at the first improving candidate, so
the current pick is always the top option during the scan); the `options`
field is the first eight sorted entries. -/
theorem c4_recommended (total_bytes target_pieces file_count : Nat)
    (htb : 0 < total_bytes) :
    0 < total_bytes ∧
    (sortedOptions total_bytes file_count).length = 12 ∧
    List.Perm (sortedOptions total_bytes file_count)
      (standard_sizes.map (mkOption total_bytes file_count)) ∧
    (sortedOptions total_bytes file_count).Pairwise
      (fun a b => b.efficiency_score ≤ a.efficiency_score) ∧
    (calcPieceSizeOptions total_bytes target_pieces file_count).1 =
      (((sortedOptions total_bytes file_count).find? (fun o =>
          decide (natAbsDiff o.piece_count target_pieces <
              natAbsDiff ((sortedOptions total_bytes
                file_count).headD dummyOption).piece_count target_pieces ∧
            ((sortedOptions total_bytes file_count).headD
                dummyOption).efficiency_score * (95/100) ≤
              o.efficiency_score))).getD
        ((sortedOptions total_bytes file_count).headD dummyOption)) ∧
    (calcPieceSizeOptions total_bytes target_pieces file_count).2 =
      (sortedOptions total_bytes file_count).take 8 := by
  refine ⟨htb, ?_, ?_, ?_, ?_, rfl⟩
  · simp only [sortedOptions]
    rw [(stableSortDesc_perm scoreLE _).length_eq, List.length_map]
    decide
  · exact stableSortDesc_perm scoreLE _
  · have hpw := pairwise_stableSortDesc scoreLE scoreLE_total scoreLE_trans
      (standard_sizes.map (mkOption total_bytes file_count))
    exact hpw.imp (fun hab => by simpa [scoreLE] using hab)
  · exact scanImprove_eq_find _ _ _

/-- Claim C4, witness: the characterization applied to the 10 GiB,
single-file, 2500-target scenario. -/
theorem c4_witness :
    0 < 10737418240 ∧
    (sortedOptions 10737418240 1).length = 12 ∧
    List.Perm (sortedOptions 10737418240 1)
      (standard_sizes.map (mkOption 10737418240 1)) ∧
    (sortedOptions 10737418240 1).Pairwise
      (fun a b => b.efficiency_score ≤ a.efficiency_score) ∧
    (calcPieceSizeOptions 10737418240 2500 1).1 =
      (((sortedOptions 10737418240 1).find? (fun o =>
          decide (natAbsDiff o.piece_count 2500 <
              natAbsDiff ((sortedOptions 10737418240
                1).headD dummyOption).piece_count 2500 ∧
            ((sortedOptions 10737418240 1).headD
                dummyOption).efficiency_score * (95/100) ≤
              o.efficiency_score))).getD
        ((sortedOptions 10737418240 1).headD dummyOption)) ∧
    (calcPieceSizeOptions 10737418240 2500 1).2 =
      (sortedOptions 10737418240 1).take 8 :=
  c4_recommended 10737418240 2500 1 (by norm_num)

/-- Claim C6 (amended): the piece-size recommendation fails — with the
structured result `success: False` and the message
`"Cannot determine content size for piece calculation"` — exactly when
the analysed `total_bytes` is 0 AND `file_count` is 0; when
`total_bytes = 0` but files were counted, the size is estimated as
`file_count × 100 MiB` and the call succeeds; an analysis failure is
propagated as a structured failure.  (As stated the claim fails: with
`total_bytes = 0` and `file_count = 3` the call succeeds.) -/
theorem c6_zero_size_amended (tb fc target_pieces : Nat) :
    ((calculate_optimal_piece_size (.found tb fc) target_pieces).isSuccess =
        false ↔ (tb = 0 ∧ fc = 0)) ∧
    (tb = 0 ∧ fc = 0 →
      calculate_optimal_piece_size (.found tb fc) target_pieces =
        .failure "Cannot determine content size for piece calculation") ∧
    (∀ e, calculate_optimal_piece_size (.failure e) target_pieces =
      .failure e) := by
  refine ⟨?_, ?_, fun e => rfl⟩
  · simp only [calculate_optimal_piece_size]
    by_cases h1 : tb = 0 ∧ 0 < fc
    · rw [if_pos h1]
      have hne : fc * estimatedAvgSize ≠ 0 := by
        have := h1.2
        simp only [estimatedAvgSize]
        positivity
      rw [if_neg hne]
      simp only [CalcResult.isSuccess]
      constructor
      · intro hfalse; exact absurd hfalse (by simp)
      · intro ⟨_, hfc⟩; omega
    · rw [if_neg h1]
      by_cases h2 : tb = 0
      · rw [if_pos h2]
        simp only [CalcResult.isSuccess]
        have hfc : fc = 0 := by
          by_contra hfc0
          exact h1 ⟨h2, Nat.pos_of_ne_zero hfc0⟩
        constructor
        · intro _; exact ⟨h2, hfc⟩
        · intro _; trivial
      · rw [if_neg h2]
        simp only [CalcResult.isSuccess]
        constructor
        · intro hfalse; exact absurd hfalse (by simp)
        · intro ⟨h3, _⟩; exact absurd h3 h2
  · intro ⟨h1, h2⟩
    subst h1
    subst h2
    rfl

/-- Claim C6, counterexample to the claim as stated: the recommendation
called on an analysis with `total_bytes = 0` but `file_count = 3` does
NOT fail — the size is estimated and the structured result has
`success: True`. -/
theorem c6_counterexample :
    (calculate_optimal_piece_size (.found 0 3) 2500).isSuccess = true := by
  rfl

/-- Claim C6, witness: the amended statement applied at
`total_bytes = 0`, `file_count = 0`, `target = 2500`. -/
theorem c6_witness :
    calculate_optimal_piece_size (.found 0 0) 2500 =
      .failure "Cannot determine content size for piece calculation" :=
  (c6_zero_size_amended 0 0 2500).2.1 ⟨rfl, rfl⟩

theorem scanLoop_nil (L : PyStr → Option (List PyStr)) (md : Nat)
    (v : List PyStr) (s : ScanStats) : scanLoop L md [] v s = s := by
  rw [scanLoop]

theorem scanLoop_stop (L : PyStr → Option (List PyStr)) (md : Nat) (p : PyStr)
    (d : Nat) (rest : List (PyStr × Nat)) (v : List PyStr) (s : ScanStats)
    (h1 : ¬ v.length < 1000) :
    scanLoop L md ((p, d) :: rest) v s = s := by
  rw [scanLoop, dif_neg h1]

theorem scanLoop_skip (L : PyStr → Option (List PyStr)) (md : Nat) (p : PyStr)
    (d : Nat) (rest : List (PyStr × Nat)) (v : List PyStr) (s : ScanStats)
    (h1 : v.length < 1000) (h2 : p ∈ v ∨ md < d) :
    scanLoop L md ((p, d) :: rest) v s = scanLoop L md rest v s := by
  rw [scanLoop, dif_pos h1, if_pos h2]

theorem scanLoop_fail (L : PyStr → Option (List PyStr)) (md : Nat) (p : PyStr)
    (d : Nat) (rest : List (PyStr × Nat)) (v : List PyStr) (s : ScanStats)
    (h1 : v.length < 1000) (h2 : ¬ (p ∈ v ∨ md < d)) (h3 : L p = none) :
    scanLoop L md ((p, d) :: rest) v s =
      scanLoop L md rest (p :: v) { s with max_depth := max s.max_depth d } := by
  rw [scanLoop, dif_pos h1, if_neg h2, h3]

theorem scanLoop_go (L : PyStr → Option (List PyStr)) (md : Nat) (p : PyStr)
    (d : Nat) (rest : List (PyStr × Nat)) (v : List PyStr) (s : ScanStats)
    (contents : List PyStr)
    (h1 : v.length < 1000) (h2 : ¬ (p ∈ v ∨ md < d))
    (h3 : L p = some contents) :
    scanLoop L md ((p, d) :: rest) v s =
      scanLoop L md
        (rest ++ (processItems p d contents
          { s with max_depth := max s.max_depth d }).2)
        (p :: v)
        (processItems p d contents
          { s with max_depth := max s.max_depth d }).1 := by
  rw [scanLoop, dif_pos h1, if_neg h2, h3]

theorem processItems_fst_preserve (current : PyStr) (d : Nat) :
    ∀ (items : List PyStr) (stats : ScanStats),
      (processItems current d items stats).1.total_bytes = stats.total_bytes ∧
      (processItems current d items stats).1.largest_file = stats.largest_file := by
  intro items
  induction items with
  | nil => intro stats; exact ⟨rfl, rfl⟩
  | cons item rest ih =>
    intro stats
    rw [processItems]
    by_cases h : endsWithSlash item = true
    · rw [if_pos h]
      simpa using ih _
    · rw [if_neg h]
      simpa using ih _

theorem scanLoop_preserve (L : PyStr → Option (List PyStr)) (md : Nat) :
    ∀ (q : List (PyStr × Nat)) (v : List PyStr) (s : ScanStats),
      (scanLoop L md q v s).total_bytes = s.total_bytes ∧
      (scanLoop L md q v s).largest_file = s.largest_file := by
  intro q v s
  induction q, v, s using scanLoop.induct L md with
  | case1 v s => rw [scanLoop_nil]; exact ⟨rfl, rfl⟩
  | case2 v s p d rest h1 h2 ih =>
    rw [scanLoop_skip L md p d rest v s h1 h2]
    exact ih
  | case3 v s p d rest h1 h2 stats1 h3 ih =>
    rw [scanLoop_fail L md p d rest v s h1 h2 h3]
    exact ⟨ih.1, ih.2⟩
  | case4 v s p d rest h1 h2 stats1 contents h3 r ih =>
    rw [scanLoop_go L md p d rest v s contents h1 h2 h3]
    have hp := processItems_fst_preserve p d contents stats1
    exact ⟨ih.1.trans hp.1, ih.2.trans hp.2⟩
  | case5 v s p d rest h1 =>
    rw [scanLoop_stop L md p d rest v s h1]
    exact ⟨rfl, rfl⟩

/-- Claim C10: for every root path and every directory-listing capability,
the recursive scan returns `total_bytes = 0` and `largest_file = none`:
the traversal counts files and directories but never accumulates byte
sizes (the qBittorrent directory API provides none), and `largest_file`
is never assigned after its initialisation. -/
theorem c10_scan_aggregates (listDir : PyStr → Option (List PyStr))
    (base_path : PyStr) (max_depth : Nat) :
    (calculateRecursiveStats listDir base_path max_depth).total_bytes = 0 ∧
    (calculateRecursiveStats listDir base_path max_depth).largest_file = none :=
  scanLoop_preserve listDir max_depth [(base_path, 0)] [] initStats

/-- A concrete directory tree whose listing fails (raises) at `"/r/a"`:
the root `"/r"` holds directories `a`, `b` and file `f1`; `"/r/b"` holds
files `f2`, `f3`; every other path lists empty. -/
def exampleListDir (p : PyStr) : Option (List PyStr) :=
  if p = pstr "/r" then some [pstr "a/", pstr "b/", pstr "f1"]
  else if p = pstr "/r/a" then none
  else if p = pstr "/r/b" then some [pstr "f2", pstr "f3"]
  else some []

/-- Claim C8: a directory whose listing raises contributes zero entries —
the step equation shows the loop records only the depth bookkeeping for
the failed directory and continues with the remaining queue — and on the
concrete tree where `"/r/a"` fails the scan still returns the partial
aggregate `file_count = 3`, `directory_count = 2` from the rest of the
tree (the scan is a total function: it cannot raise). -/
theorem c8_scan_partial :
    (∀ (listDir : PyStr → Option (List PyStr)) (maxDepth : Nat) (p : PyStr)
        (d : Nat) (rest : List (PyStr × Nat)) (visited : List PyStr)
        (stats : ScanStats),
      visited.length < 1000 → ¬ (p ∈ visited ∨ maxDepth < d) →
      listDir p = none →
      scanLoop listDir maxDepth ((p, d) :: rest) visited stats =
        scanLoop listDir maxDepth rest (p :: visited)
          { stats with max_depth := max stats.max_depth d }) ∧
    calculateRecursiveStats exampleListDir (pstr "/r") 10 =
      ⟨0, 3, 2, 1, none⟩ := by
  constructor
  · intro listDir maxDepth p d rest visited stats h1 h2 h3
    exact scanLoop_fail listDir maxDepth p d rest visited stats h1 h2 h3
  · have e1 : calculateRecursiveStats exampleListDir (pstr "/r") 10 =
        scanLoop exampleListDir 10 [(pstr "/r", 0)] [] initStats := rfl
    rw [e1]
    rw [scanLoop_go exampleListDir 10 (pstr "/r") 0 [] [] initStats
      [pstr "a/", pstr "b/", pstr "f1"] (by decide) (by decide) (by decide)]
    show scanLoop exampleListDir 10 [(pstr "/r/a", 1), (pstr "/r/b", 1)]
      [pstr "/r"] ⟨0, 1, 2, 0, none⟩ = ⟨0, 3, 2, 1, none⟩
    rw [scanLoop_fail exampleListDir 10 (pstr "/r/a") 1 [(pstr "/r/b", 1)]
      [pstr "/r"] ⟨0, 1, 2, 0, none⟩ (by decide) (by decide) (by decide)]
    show scanLoop exampleListDir 10 [(pstr "/r/b", 1)]
      [pstr "/r/a", pstr "/r"] ⟨0, 1, 2, 1, none⟩ = ⟨0, 3, 2, 1, none⟩
    rw [scanLoop_go exampleListDir 10 (pstr "/r/b") 1 []
      [pstr "/r/a", pstr "/r"] ⟨0, 1, 2, 1, none⟩ [pstr "f2", pstr "f3"]
      (by decide) (by decide) (by decide)]
    show scanLoop exampleListDir 10 []
      [pstr "/r/b", pstr "/r/a", pstr "/r"] ⟨0, 3, 2, 1, none⟩ =
      ⟨0, 3, 2, 1, none⟩
    rw [scanLoop_nil]

/-- Claim C8, witness: the step equation applied to a concrete failing
directory with a nonempty remaining queue. -/
theorem c8_witness :
    scanLoop exampleListDir 10 [(pstr "/r/a", 1), (pstr "/r/b", 1)]
      [pstr "/r"] ⟨0, 1, 2, 0, none⟩ =
      scanLoop exampleListDir 10 [(pstr "/r/b", 1)] [pstr "/r/a", pstr "/r"]
        { ScanStats.mk 0 1 2 0 none with max_depth := max 0 1 } :=
  c8_scan_partial.1 exampleListDir 10 (pstr "/r/a") 1 [(pstr "/r/b", 1)]
    [pstr "/r"] ⟨0, 1, 2, 0, none⟩ (by decide) (by decide) (by decide)
